import Mathlib

/-!
Verification of the manifest split/normalize pipeline of cluster-forge
(`cmd/smelter/split.go`).

The embedding is shallow: YAML documents are modelled as values of an
inductive type `YamlVal` (the result of decoding a document with
go-yaml), mappings as association lists in document order.  The yaml.v2
marshaller serializes Go maps with deterministically sorted keys; we
model that canonical serialization with a lexicographic key sort
(`canon`).  Byte-level concerns (the line sanitizer) are modelled over
`List Char`.
-/

namespace ClusterForge

/-- Total boolean order on character lists (lexicographic). Used to model
the deterministic key ordering yaml.v2 applies when marshalling maps. -/
def charListLe : List Char → List Char → Bool
  | [], _ => true
  | _ :: _, [] => false
  | a :: as, b :: bs => if a = b then charListLe as bs else decide (a < b)

/-- Lexicographic order on strings. -/
def strLe (a b : String) : Bool :=
  charListLe a.data b.data

/-- Association-list lookup with string keys: the first binding wins,
matching Go map construction from a decoded YAML mapping. -/
def lookupKey {β : Type} (k : String) : List (String × β) → Option β
  | [] => none
  | p :: t => if p.1 = k then some p.2 else lookupKey k t

/-- Insert one binding into a key-sorted list, keeping it sorted. -/
def insertByKey {β : Type} (p : String × β) : List (String × β) → List (String × β)
  | [] => [p]
  | q :: t => if strLe p.1 q.1 then p :: q :: t else q :: insertByKey p t

/-- Sort an association list by key (insertion sort): the model of the
deterministic key order yaml.v2 uses when serializing a Go map. -/
def sortByKey {β : Type} : List (String × β) → List (String × β)
  | [] => []
  | p :: t => insertByKey p (sortByKey t)

/-- Boolean check that the keys of an association list are pairwise
distinct (the invariant of every mapping produced by the YAML decoder). -/
def keysNodupB {β : Type} : List (String × β) → Bool
  | [] => true
  | p :: t => !(lookupKey p.1 t).isSome && keysNodupB t

/-- A decoded YAML value as go-yaml produces it: scalars, sequences and
mappings (association lists in document order, keys distinct). -/
inductive YamlVal : Type where
  | null : YamlVal
  | str (s : String) : YamlVal
  | int (n : Int) : YamlVal
  | bool (b : Bool) : YamlVal
  | seq (items : List YamlVal) : YamlVal
  | map (entries : List (String × YamlVal)) : YamlVal

abbrev Entries := List (String × YamlVal)

mutual

/-- Canonical reserialization of a decoded value, modelling
`yaml.Marshal` applied to the generic decoding: every mapping is emitted
with deterministically sorted keys (Go maps are unordered; yaml.v2 sorts
keys when emitting), scalars and sequence order are kept. -/
def canon : YamlVal → YamlVal
  | .null => .null
  | .str s => .str s
  | .int n => .int n
  | .bool b => .bool b
  | .seq items => .seq (canonList items)
  | .map entries => .map (sortByKey (canonEntries entries))

def canonEntries : List (String × YamlVal) → List (String × YamlVal)
  | [] => []
  | p :: t => (p.1, canon p.2) :: canonEntries t

def canonList : List YamlVal → List YamlVal
  | [] => []
  | v :: t => canon v :: canonList t

end

mutual

/-- Well-formedness of a decoded value: every mapping has pairwise
distinct keys.  Every value actually produced by the YAML decoder
satisfies this (a Go map cannot hold a key twice). -/
def wfV : YamlVal → Bool
  | .null => true
  | .str _ => true
  | .int _ => true
  | .bool _ => true
  | .seq items => wfL items
  | .map entries => keysNodupB entries && wfE entries

def wfE : List (String × YamlVal) → Bool
  | [] => true
  | p :: t => wfV p.2 && wfE t

def wfL : List YamlVal → Bool
  | [] => true
  | v :: t => wfV v && wfL t

end

/-- Walk a path of mapping keys down a value. -/
def getPath (v : YamlVal) : List String → Option YamlVal
  | [] => some v
  | k :: rest =>
      match v with
      | .map l =>
          match lookupKey k l with
          | some w => getPath w rest
          | none => none
      | _ => none

/-! ### The typed projection (`k8sObject` in split.go)

`SplitYAML` decodes each cleaned document twice: once generically into a
Go map (`objectMap`), once into the struct `k8sObject` carrying `kind`,
`apiVersion` and `metadata` with `name`, `namespace`, `labels`,
`annotations`.  yaml.v2 leaves a missing or null field at its zero
value and fails when a present value has the wrong shape. -/

structure K8sMetadata : Type where
  name : String
  nspace : String
  labels : List (String × String)
  annotations : List (String × String)

structure K8sObject : Type where
  kind : String
  apiVersion : String
  metadata : K8sMetadata

/-- Decode an optional YAML value into a Go `string` field: missing or
null yields the zero value `""`, a scalar of another type or a composite
is a decode error. -/
def strField : Option YamlVal → Except String String
  | none => .ok ""
  | some .null => .ok ""
  | some (.str s) => .ok s
  | some _ => .error "cannot unmarshal value into string"

def strPairs : List (String × YamlVal) → Except String (List (String × String))
  | [] => .ok []
  | (k, .str s) :: t =>
      match strPairs t with
      | .error e => .error e
      | .ok r => .ok ((k, s) :: r)
  | (k, .null) :: t =>
      match strPairs t with
      | .error e => .error e
      | .ok r => .ok ((k, "") :: r)
  | (_, _) :: _ => .error "cannot unmarshal value into string"

/-- Decode an optional YAML value into a Go `map[string]string` field. -/
def strMapField : Option YamlVal → Except String (List (String × String))
  | none => .ok []
  | some .null => .ok []
  | some (.map l) => strPairs l
  | some _ => .error "cannot unmarshal value into map"

/-- Decode the `metadata` value into the typed struct. -/
def projectMeta : Option YamlVal → Except String K8sMetadata
  | none => .ok ⟨"", "", [], []⟩
  | some .null => .ok ⟨"", "", [], []⟩
  | some (.map l) =>
      match strField (lookupKey "name" l), strField (lookupKey "namespace" l),
          strMapField (lookupKey "labels" l), strMapField (lookupKey "annotations" l) with
      | .ok name, .ok nspace, .ok labels, .ok annotations =>
          .ok ⟨name, nspace, labels, annotations⟩
      | .error e, _, _, _ => .error e
      | _, .error e, _, _ => .error e
      | _, _, .error e, _ => .error e
      | _, _, _, .error e => .error e
  | some _ => .error "cannot unmarshal value into metadata struct"

/-- Decode a document into the typed `k8sObject` view. -/
def projectObject : YamlVal → Except String K8sObject
  | .map l =>
      match strField (lookupKey "kind" l), strField (lookupKey "apiVersion" l),
          projectMeta (lookupKey "metadata" l) with
      | .ok kind, .ok apiVersion, .ok md => .ok ⟨kind, apiVersion, md⟩
      | .error e, _, _ => .error e
      | _, .error e, _ => .error e
      | _, _, .error e => .error e
  | .null => .ok ⟨"", "", ⟨"", "", [], []⟩⟩
  | _ => .error "cannot unmarshal document into struct"

/-- Serialize a decoded `map[string]string` field: yaml.v2 emits a Go
map with sorted keys. -/
def marshalStrMap (l : List (String × String)) : YamlVal :=
  .map (sortByKey (l.map (fun p => (p.1, YamlVal.str p.2))))

/-- Serialize the typed metadata struct as yaml.v2 does: fields in
declaration order, `namespace`, `labels` and `annotations` omitted when
empty (their yaml tags carry `omitempty`), `name` always present. -/
def marshalMeta (m : K8sMetadata) : YamlVal :=
  .map (("name", YamlVal.str m.name) ::
    ((if m.nspace = "" then [] else [("namespace", YamlVal.str m.nspace)]) ++
     (if m.labels.isEmpty then [] else [("labels", marshalStrMap m.labels)]) ++
     (if m.annotations.isEmpty then [] else [("annotations", marshalStrMap m.annotations)])))

/-- `objectMap["metadata"] = metadataObject.Metadata`: replace the
binding when the key exists, add it otherwise. -/
def updateMetadata (l : Entries) (mv : YamlVal) : Entries :=
  if (lookupKey "metadata" l).isSome then
    l.map (fun p => if p.1 = "metadata" then ("metadata", mv) else p)
  else l ++ [("metadata", mv)]

/-- The Namespace Normalizer: the per-document body of `SplitYAML`
after `clean` — decode generically and into the typed view, and when the
resource is namespace-scoped with an empty namespace, overwrite the
generic mapping's `metadata` with the typed metadata carrying the
default namespace; reserialize.  The cluster-scope classification
(`utils.IsClusterScoped`, defined outside this file's sources) is a
parameter: a pure predicate of `(kind, apiVersion)`. -/
def normalize (isClusterScoped : String → String → Bool) (defNs : String) :
    YamlVal → Except String YamlVal
  | .map l =>
      match projectObject (.map l) with
      | .error e => .error e
      | .ok obj =>
          if isClusterScoped obj.kind obj.apiVersion = false ∧ obj.metadata.nspace = "" then
            .ok (.map (sortByKey (updateMetadata (canonEntries l)
              (marshalMeta { obj.metadata with nspace := defNs }))))
          else
            .ok (canon (.map l))
  | _ => .error "cannot unmarshal document into mapping"

/-- A namespace-scoped document carrying a metadata field
(`creationTimestamp`) outside the typed projection. -/
def c1doc : YamlVal :=
  .map [("apiVersion", .str "v1"), ("kind", .str "Pod"),
    ("metadata", .map [("name", .str "x"), ("creationTimestamp", .str "t")])]

/-- What the Normalizer actually produces for `c1doc` with default
namespace `default`: the whole metadata mapping is replaced by the
typed projection, dropping `creationTimestamp`. -/
def c1out : YamlVal :=
  .map [("apiVersion", .str "v1"), ("kind", .str "Pod"),
    ("metadata", .map [("name", .str "x"), ("namespace", .str "default")])]

/-! ### The Document Splitter (`splitYAML` in split.go)

The decode loop: each call of `dec.Decode` either hits end of stream,
fails, or produces a value; nil values (empty documents) are skipped,
the rest are re-marshalled and collected in order.  We model the stream
as the list of decode outcomes. -/

def splitYAML : List (Except String YamlVal) → Except String (List YamlVal)
  | [] => .ok []
  | .error e :: _ => .error e
  | .ok .null :: rest => splitYAML rest
  | .ok v :: rest =>
      match splitYAML rest with
      | .error e => .error e
      | .ok r => .ok (canon v :: r)

/-- Is the decoded document empty (`value == nil` in the loop)? -/
def isNullDoc : YamlVal → Bool
  | .null => true
  | _ => false

/-! ### The Line Sanitizer (`clean` in split.go)

`clean` scans its input with `bufio.Scanner` (split function
`ScanLines`: tokens are separated by a newline; one carriage return
directly before the newline, or at the end of the final unterminated
token, is dropped; a final empty token after a trailing newline is not
produced).  Lines containing `---`, starting with `#` after
`strings.TrimSpace`, or containing one of the two provenance substrings
are skipped; every other line is written back followed by a newline.

`clean` returns `([]byte, error)`: the scanner caps tokens at
`bufio.MaxScanTokenSize` (64 KiB), so when some newline-free run of the
input reaches that size the scan stops, `scanner.Err()` reports
`ErrTooLong`, and `clean` returns the error with no output (the partial
buffer is discarded).  A newline-terminated run errs already at 64 KiB
because the buffer must also hold its newline; the final unterminated
run errs at 64 KiB because the full buffer aborts the scan before the
reader can report end of input. -/

abbrev Bytes := List Char

/-- `dropCR` of `bufio.ScanLines`: remove one trailing carriage return. -/
def dropCRB (l : Bytes) : Bytes :=
  match l.getLast? with
  | some c => if c = '\r' then l.dropLast else l
  | none => l

/-- Raw split of a character sequence at newlines; always non-empty
(the trailing segment may be empty). -/
def splitNl : Bytes → List Bytes
  | [] => [[]]
  | c :: t =>
      if c = '\n' then [] :: splitNl t
      else
        match splitNl t with
        | [] => [[c]]
        | h :: r => (c :: h) :: r

/-- Drop a final empty segment: the scanner produces no token for the
empty tail after a trailing newline (or for empty input). -/
def dropFinalEmpty : List Bytes → List Bytes
  | [] => []
  | [x] => if x.isEmpty then [] else [x]
  | x :: r => x :: dropFinalEmpty r

/-- The token sequence produced by `bufio.Scanner` with `ScanLines`,
when no token overruns the scanner's buffer. -/
def scanLines (l : Bytes) : List Bytes :=
  (dropFinalEmpty (splitNl l)).map dropCRB

/-- `bufio.MaxScanTokenSize`: 64 * 1024. -/
def maxScanTokenSize : Nat := 65536

/-- Does scanning the input abort with `bufio.ErrTooLong`?  True when
some newline-free run of the input reaches the 64 KiB token cap: the
scanner's buffer is then full without holding a complete token. -/
def tooLong (l : Bytes) : Bool :=
  (splitNl l).any (fun seg => maxScanTokenSize ≤ seg.length)

/-- ASCII subset of the whitespace recognized by `strings.TrimSpace`.
The documents handled here are produced by `yaml.Marshal` and contain
no exotic unicode spacing. -/
def isSpaceChar (c : Char) : Bool :=
  c = ' ' || c = '\t' || c = '\n' || c = '\x0b' || c = '\x0c' || c = '\r'

def trimLeftSpace (l : Bytes) : Bytes := l.dropWhile isSpaceChar

def trimRightSpace (l : Bytes) : Bytes := (l.reverse.dropWhile isSpaceChar).reverse

/-- `strings.TrimSpace`. -/
def goTrimSpace (l : Bytes) : Bytes := trimRightSpace (trimLeftSpace l)

/-- `strings.HasPrefix(s, "#")`: does the sequence start with `#`? -/
def startsHash : Bytes → Bool
  | [] => false
  | c :: _ => c = '#'

/-- Does `pat` occur at the start of `l`? -/
def startsWithSeq : Bytes → Bytes → Bool
  | [], _ => true
  | _ :: _, [] => false
  | a :: pat, b :: l => a = b && startsWithSeq pat l

/-- `strings.Contains`: does `pat` occur contiguously inside `l`? -/
def containsSeq (pat : Bytes) : Bytes → Bool
  | [] => pat.isEmpty
  | c :: t => startsWithSeq pat (c :: t) || containsSeq pat t

/-- The skip condition of the loop in `clean`, verbatim from the code:
`strings.Contains(line, "---") || strings.HasPrefix(strings.TrimSpace(line), "#") ||
strings.Contains(line, "helm.sh/chart") || strings.Contains(line, "app.kubernetes.io/managed-by")`. -/
def removeLine (line : Bytes) : Bool :=
  containsSeq ("---".data) line || startsHash (goTrimSpace line) ||
  containsSeq ("helm.sh/chart".data) line ||
  containsSeq ("app.kubernetes.io/managed-by".data) line

def cleanAux : List Bytes → Bytes
  | [] => []
  | line :: rest =>
      if removeLine line then cleanAux rest
      else line ++ '\n' :: cleanAux rest

/-- The Line Sanitizer `clean`: filter the scanned lines, or fail with
the scanner's error when a line overruns the 64 KiB token cap (the
accumulated output is discarded in that case, as in the source, which
returns `nil, err` after the scan loop). -/
def clean (input : Bytes) : Except String Bytes :=
  if tooLong input then .error "bufio.Scanner: token too long"
  else .ok (cleanAux (scanLines input))

/-- The lines of the input that `clean` keeps. -/
def keptLines (input : Bytes) : List Bytes :=
  (scanLines input).filter (fun l => !removeLine l)

/-- Emit a sequence of lines, appending a newline to each. -/
def joinLines (ls : List Bytes) : Bytes :=
  ls.foldr (fun line acc => line ++ '\n' :: acc) []

/-- Modelled from the spec (section 4.2, Line Sanitizer contract): a
line is removed iff, after trimming leading whitespace, it contains
`---`, starts with `#`, or contains one of the two provenance
substrings; the containment checks are on the full line, the `#` check
on the line after trimming leading whitespace only. -/
def removeLineSpec (line : Bytes) : Bool :=
  containsSeq ("---".data) line || startsHash (trimLeftSpace line) ||
  containsSeq ("helm.sh/chart".data) line ||
  containsSeq ("app.kubernetes.io/managed-by".data) line

/-- Modelled from the spec: the sanitizer keeps exactly the
non-removed lines, verbatim, each with a trailing newline appended. -/
def cleanSpec (input : Bytes) : Bytes :=
  joinLines ((scanLines input).filter (fun l => !removeLineSpec l))

/-! ### The File Emitter and the whole run

For each document `SplitYAML` builds
`working/<config.Name>/<Kind>_<Name>.yaml` and writes the reserialized
bytes there with `os.WriteFile` (an existing file is truncated:
last write wins).  The file system is modelled as a partial map from
paths to contents; any `log.Fatal` aborts the run with the writes made
so far kept on disk. -/

abbrev FS := String → Option String

def writeFile (fs : FS) (p c : String) : FS :=
  fun q => if q = p then some c else fs q

/-- `fmt.Sprintf("working/%s/%s_%s.yaml", config.Name, kind, name)`. -/
def pathOf (group kind name : String) : String :=
  "working/" ++ group ++ "/" ++ kind ++ "_" ++ name ++ ".yaml"

structure EmitDoc : Type where
  kind : String
  name : String
  content : String

/-- The write loop of `SplitYAML`: each document's content is written to
its derived path, in batch order. -/
def emitBatch (group : String) : FS → List EmitDoc → FS
  | fs, [] => fs
  | fs, d :: rest => emitBatch group (writeFile fs (pathOf group d.kind d.name) d.content) rest

/-- One whole run of `SplitYAML` after the input file is read: split the
stream, then process documents in order, each one through the pure
per-document step (sanitize, normalize, derive the path), writing the
result; the first failure aborts the run (`log.Fatal`), keeping the
writes already made. -/
def processDocs (step : YamlVal → Except String (String × String)) :
    FS → List YamlVal → FS × Bool
  | fs, [] => (fs, true)
  | fs, d :: rest =>
      match step d with
      | .error _ => (fs, false)
      | .ok (p, c) => processDocs step (writeFile fs p c) rest

def splitRun (step : YamlVal → Except String (String × String))
    (stream : List (Except String YamlVal)) (fs : FS) : FS × Bool :=
  match splitYAML stream with
  | .error _ => (fs, false)
  | .ok docs => processDocs step fs docs

/-- The writes a run performs, in order, up to the first failing
document: they depend only on the input documents, never on the file
system found on disk. -/
def docWrites (step : YamlVal → Except String (String × String)) :
    List YamlVal → List (String × String)
  | [] => []
  | d :: rest =>
      match step d with
      | .error _ => []
      | .ok w => w :: docWrites step rest

def docsOk (step : YamlVal → Except String (String × String)) : List YamlVal → Bool
  | [] => true
  | d :: rest =>
      match step d with
      | .error _ => false
      | .ok _ => docsOk step rest

def applyWrites : FS → List (String × String) → FS
  | fs, [] => fs
  | fs, w :: rest => applyWrites (writeFile fs w.1 w.2) rest

/-! ## Lemmas about the lexicographic string order -/

theorem charListLe_total : ∀ a b : List Char, charListLe a b = true ∨ charListLe b a = true
  | [], _ => Or.inl rfl
  | _ :: _, [] => Or.inr rfl
  | a :: as, b :: bs => by
      by_cases hab : a = b
      · subst hab
        simp only [charListLe, if_pos rfl]
        exact charListLe_total as bs
      · have hba : b ≠ a := fun e => hab e.symm
        rcases lt_trichotomy a b with h | h | h
        · refine Or.inl ?_
          simp only [charListLe, if_neg hab]
          exact decide_eq_true h
        · exact absurd h hab
        · refine Or.inr ?_
          simp only [charListLe, if_neg hba]
          exact decide_eq_true h

theorem charListLe_trans : ∀ a b c : List Char,
    charListLe a b = true → charListLe b c = true → charListLe a c = true
  | [], _, _, _, _ => rfl
  | _ :: _, [], _, h1, _ => by simp [charListLe] at h1
  | _ :: _, _ :: _, [], _, h2 => by simp [charListLe] at h2
  | a :: as, b :: bs, c :: cs, h1, h2 => by
      simp only [charListLe] at h1 h2 ⊢
      by_cases hab : a = b <;> by_cases hbc : b = c
      · subst hab; subst hbc
        rw [if_pos rfl] at h1 h2 ⊢
        exact charListLe_trans as bs cs h1 h2
      · subst hab
        rw [if_pos rfl] at h1
        rw [if_neg hbc] at h2 ⊢
        exact h2
      · subst hbc
        rw [if_pos rfl] at h2
        rw [if_neg hab] at h1 ⊢
        exact h1
      · rw [if_neg hab] at h1
        rw [if_neg hbc] at h2
        have hac : a < c := lt_trans (of_decide_eq_true h1) (of_decide_eq_true h2)
        rw [if_neg (ne_of_lt hac)]
        exact decide_eq_true hac

theorem charListLe_antisymm : ∀ a b : List Char,
    charListLe a b = true → charListLe b a = true → a = b
  | [], [], _, _ => rfl
  | [], _ :: _, _, h2 => by simp [charListLe] at h2
  | _ :: _, [], h1, _ => by simp [charListLe] at h1
  | a :: as, b :: bs, h1, h2 => by
      by_cases hab : a = b
      · subst hab
        simp only [charListLe, if_pos rfl] at h1 h2
        exact congrArg (a :: ·) (charListLe_antisymm as bs h1 h2)
      · have hba : b ≠ a := fun e => hab e.symm
        simp only [charListLe, if_neg hab] at h1
        simp only [charListLe, if_neg hba] at h2
        exact absurd (lt_trans (of_decide_eq_true h1) (of_decide_eq_true h2)) (lt_irrefl a)

theorem strLe_total (a b : String) : strLe a b = true ∨ strLe b a = true :=
  charListLe_total a.data b.data

theorem strLe_trans {a b c : String} (h1 : strLe a b = true) (h2 : strLe b c = true) :
    strLe a c = true :=
  charListLe_trans a.data b.data c.data h1 h2

theorem strLe_antisymm {a b : String} (h1 : strLe a b = true) (h2 : strLe b a = true) :
    a = b := by
  cases a with
  | mk da => cases b with
    | mk db => exact congrArg String.mk (charListLe_antisymm da db h1 h2)

/-! ## Lemmas about association lists, `sortByKey` and `keysNodupB` -/

section AssocList
variable {β : Type}

theorem lookupKey_none_iff {k : String} :
    ∀ {l : List (String × β)}, lookupKey k l = none ↔ k ∉ l.map Prod.fst
  | [] => by simp [lookupKey]
  | p :: t => by
      simp only [lookupKey, List.map_cons, List.mem_cons]
      by_cases h : p.1 = k
      · subst h; simp
      · rw [if_neg h, lookupKey_none_iff]
        constructor
        · intro hn hm
          rcases hm with hm | hm
          · exact h hm.symm
          · exact hn hm
        · intro hn hm
          exact hn (Or.inr hm)

theorem lookupKey_some_mem {k : String} {v : β} :
    ∀ {l : List (String × β)}, lookupKey k l = some v → (k, v) ∈ l
  | [], h => by simp [lookupKey] at h
  | p :: t, h => by
      by_cases hp : p.1 = k
      · simp only [lookupKey, if_pos hp] at h
        cases p
        simp_all
      · simp only [lookupKey, if_neg hp] at h
        exact List.mem_cons_of_mem _ (lookupKey_some_mem h)

theorem mem_lookupKey {k : String} {v : β} :
    ∀ {l : List (String × β)}, (l.map Prod.fst).Nodup → (k, v) ∈ l → lookupKey k l = some v
  | [], _, hm => by simp at hm
  | p :: t, hnd, hm => by
      simp only [List.map_cons, List.nodup_cons] at hnd
      rcases List.mem_cons.mp hm with h | h
      · subst h; simp [lookupKey]
      · have hk : p.1 ≠ k := by
          intro he
          exact hnd.1 (he ▸ List.mem_map_of_mem Prod.fst h)
        simp only [lookupKey, if_neg hk]
        exact mem_lookupKey hnd.2 h

theorem keysNodupB_iff :
    ∀ {l : List (String × β)}, keysNodupB l = true ↔ (l.map Prod.fst).Nodup
  | [] => by simp [keysNodupB]
  | p :: t => by
      rw [List.map_cons, List.nodup_cons]
      simp only [keysNodupB, Bool.and_eq_true]
      constructor
      · rintro ⟨h1, h2⟩
        refine ⟨?_, keysNodupB_iff.mp h2⟩
        refine lookupKey_none_iff.mp ?_
        cases hl : lookupKey p.1 t with
        | none => rfl
        | some v => rw [hl] at h1; simp at h1
      · rintro ⟨h1, h2⟩
        refine ⟨?_, keysNodupB_iff.mpr h2⟩
        rw [lookupKey_none_iff.mpr h1]
        rfl

theorem perm_insertByKey (p : String × β) :
    ∀ l : List (String × β), (insertByKey p l).Perm (p :: l)
  | [] => List.Perm.refl _
  | q :: t => by
      by_cases h : strLe p.1 q.1
      · simp only [insertByKey, if_pos h]
        exact List.Perm.refl _
      · simp only [insertByKey, if_neg h]
        exact ((perm_insertByKey p t).cons q).trans (List.Perm.swap p q t)

theorem perm_sortByKey : ∀ l : List (String × β), (sortByKey l).Perm l
  | [] => List.Perm.refl _
  | p :: t => (perm_insertByKey p (sortByKey t)).trans ((perm_sortByKey t).cons p)

theorem lookupKey_eq_of_perm {l l' : List (String × β)} (hp : l.Perm l')
    (hnd : (l.map Prod.fst).Nodup) (k : String) : lookupKey k l = lookupKey k l' := by
  have hnd' : (l'.map Prod.fst).Nodup := (hp.map Prod.fst).nodup hnd
  cases h : lookupKey k l with
  | none =>
      have : k ∉ l'.map Prod.fst := fun hm =>
        (lookupKey_none_iff.mp h) ((hp.map Prod.fst).mem_iff.mpr hm)
      exact (lookupKey_none_iff.mpr this).symm
  | some v =>
      exact (mem_lookupKey hnd' (hp.mem_iff.mp (lookupKey_some_mem h))).symm

theorem lookupKey_sortByKey {l : List (String × β)} (hnd : (l.map Prod.fst).Nodup)
    (k : String) : lookupKey k (sortByKey l) = lookupKey k l :=
  lookupKey_eq_of_perm (perm_sortByKey l)
    (((perm_sortByKey l).map Prod.fst).symm.nodup hnd) k

theorem pairwise_insertByKey {p : String × β} {l : List (String × β)}
    (h : l.Pairwise (fun a b => strLe a.1 b.1 = true)) :
    (insertByKey p l).Pairwise (fun a b => strLe a.1 b.1 = true) := by
  induction l with
  | nil => simp [insertByKey]
  | cons q t ih =>
      rcases List.pairwise_cons.mp h with ⟨hq, ht⟩
      by_cases hle : strLe p.1 q.1
      · simp only [insertByKey, if_pos hle]
        refine List.pairwise_cons.mpr ⟨?_, h⟩
        intro x hx
        rcases List.mem_cons.mp hx with hx | hx
        · subst hx; exact hle
        · exact strLe_trans hle (hq x hx)
      · simp only [insertByKey, if_neg hle]
        refine List.pairwise_cons.mpr ⟨?_, ih ht⟩
        intro x hx
        rcases List.mem_cons.mp ((perm_insertByKey p t).mem_iff.mp hx) with hx | hx
        · rw [hx]
          rcases strLe_total p.1 q.1 with h1 | h1
          · exact absurd h1 hle
          · exact h1
        · exact hq x hx

theorem pairwise_sortByKey :
    ∀ l : List (String × β), (sortByKey l).Pairwise (fun a b => strLe a.1 b.1 = true)
  | [] => List.Pairwise.nil
  | p :: t => pairwise_insertByKey (pairwise_sortByKey t)

theorem sortByKey_eq_of_perm {l l' : List (String × β)} (hp : l.Perm l')
    (hnd : (l.map Prod.fst).Nodup) : sortByKey l = sortByKey l' := by
  have hps : (sortByKey l).Perm (sortByKey l') :=
    ((perm_sortByKey l).trans hp).trans (perm_sortByKey l').symm
  have hnds : ((sortByKey l).map Prod.fst).Nodup :=
    (((perm_sortByKey l).map Prod.fst).symm).nodup hnd
  have hnds' : ((sortByKey l').map Prod.fst).Nodup :=
    ((hps.map Prod.fst)).nodup hnds
  have hstrict : ∀ {m : List (String × β)}, (m.map Prod.fst).Nodup →
      m.Pairwise (fun a b => strLe a.1 b.1 = true) →
      m.Pairwise (fun a b : String × β => strLe a.1 b.1 = true ∧ a.1 ≠ b.1) := by
    intro m hmnd hmle
    have hne : m.Pairwise (fun a b : String × β => a.1 ≠ b.1) :=
      (List.pairwise_map).mp hmnd
    exact (hmle.and hne).imp (fun h => h)
  haveI : IsAntisymm (String × β) (fun a b : String × β => strLe a.1 b.1 = true ∧ a.1 ≠ b.1) :=
    ⟨fun a b h1 h2 => absurd (strLe_antisymm h1.1 h2.1) h1.2⟩
  exact List.eq_of_perm_of_sorted hps
    (hstrict hnds (pairwise_sortByKey l)) (hstrict hnds' (pairwise_sortByKey l'))

end AssocList

/-! ## Lemmas about `canon`, `wfV` and `getPath` -/

theorem canonEntries_eq_map :
    ∀ l : Entries, canonEntries l = l.map (fun p => (p.1, canon p.2))
  | [] => rfl
  | p :: t => by simp [canonEntries, canonEntries_eq_map t]

theorem map_fst_canonEntries (l : Entries) :
    (canonEntries l).map Prod.fst = l.map Prod.fst := by
  rw [canonEntries_eq_map, List.map_map]
  rfl

theorem lookupKey_canonEntries (k : String) :
    ∀ l : Entries, lookupKey k (canonEntries l) = (lookupKey k l).map canon
  | [] => rfl
  | p :: t => by
      by_cases h : p.1 = k
      · simp [canonEntries, lookupKey, h]
      · simp [canonEntries, lookupKey, h, lookupKey_canonEntries k t]

theorem wfE_lookup {k : String} {v : YamlVal} :
    ∀ {l : Entries}, wfE l = true → lookupKey k l = some v → wfV v = true
  | [], _, hl => by simp [lookupKey] at hl
  | p :: t, hw, hl => by
      simp only [wfE, Bool.and_eq_true] at hw
      by_cases h : p.1 = k
      · simp only [lookupKey, if_pos h] at hl
        cases hl
        exact hw.1
      · simp only [lookupKey, if_neg h] at hl
        exact wfE_lookup hw.2 hl

theorem getPath_canon :
    ∀ (path : List String) (doc : YamlVal), wfV doc = true →
      getPath (canon doc) path = (getPath doc path).map canon
  | [], doc, _ => rfl
  | k :: rest, doc, hwf => by
      cases doc with
      | null => rfl
      | str s => rfl
      | int n => rfl
      | bool b => rfl
      | seq items => rfl
      | map l =>
          simp only [wfV, Bool.and_eq_true] at hwf
          have hnd : (l.map Prod.fst).Nodup := keysNodupB_iff.mp hwf.1
          have hndc : ((canonEntries l).map Prod.fst).Nodup := by
            rw [map_fst_canonEntries]; exact hnd
          show getPath (.map (sortByKey (canonEntries l))) (k :: rest) = _
          simp only [getPath]
          rw [lookupKey_sortByKey hndc, lookupKey_canonEntries]
          cases hl : lookupKey k l with
          | none => rfl
          | some v =>
              simp only [Option.map_some']
              exact getPath_canon rest v (wfE_lookup hwf.2 hl)

/-! ## Lemmas about `updateMetadata` -/

theorem lookupKey_map_update {mv : YamlVal} {k : String} (hk : k ≠ "metadata") :
    ∀ l : Entries,
      lookupKey k (l.map (fun p => if p.1 = "metadata" then ("metadata", mv) else p)) =
        lookupKey k l
  | [] => rfl
  | p :: t => by
      by_cases h : p.1 = "metadata"
      · have hpk : p.1 ≠ k := fun e => hk (e.symm.trans h)
        simp only [List.map_cons, if_pos h, lookupKey]
        rw [if_neg (Ne.symm hk), if_neg hpk]
        exact lookupKey_map_update hk t
      · by_cases hp : p.1 = k
        · simp only [List.map_cons, if_neg h, lookupKey, if_pos hp]
        · simp only [List.map_cons, if_neg h, lookupKey, if_neg hp]
          exact lookupKey_map_update hk t

theorem lookupKey_append_single {mv : YamlVal} {k : String} (hk : k ≠ "metadata") :
    ∀ l : Entries, lookupKey k (l ++ [("metadata", mv)]) = lookupKey k l
  | [] => by
      show lookupKey k [("metadata", mv)] = none
      simp only [lookupKey]
      rw [if_neg (Ne.symm hk)]
  | p :: t => by
      by_cases hp : p.1 = k
      · simp only [List.cons_append, lookupKey, if_pos hp]
      · simp only [List.cons_append, lookupKey, if_neg hp]
        exact lookupKey_append_single hk t

theorem lookupKey_updateMetadata_ne {l : Entries} {mv : YamlVal} {k : String}
    (hk : k ≠ "metadata") : lookupKey k (updateMetadata l mv) = lookupKey k l := by
  unfold updateMetadata
  by_cases h : (lookupKey "metadata" l).isSome
  · rw [if_pos h]
    exact lookupKey_map_update hk l
  · rw [if_neg h]
    exact lookupKey_append_single hk l

theorem lookupKey_map_update_self {mv : YamlVal} :
    ∀ l : Entries, (lookupKey "metadata" l).isSome = true →
      lookupKey "metadata" (l.map (fun p => if p.1 = "metadata" then ("metadata", mv) else p)) =
        some mv
  | [], h => by simp [lookupKey] at h
  | p :: t, h => by
      by_cases hp : p.1 = "metadata"
      · simp only [List.map_cons, if_pos hp, lookupKey]
        simp
      · simp only [lookupKey, if_neg hp] at h
        simp only [List.map_cons, if_neg hp, lookupKey, if_neg hp]
        exact lookupKey_map_update_self t h

theorem lookupKey_append_single_self {mv : YamlVal} :
    ∀ l : Entries, lookupKey "metadata" l = none →
      lookupKey "metadata" (l ++ [("metadata", mv)]) = some mv
  | [], _ => by simp [lookupKey]
  | p :: t, h => by
      by_cases hp : p.1 = "metadata"
      · simp only [lookupKey, if_pos hp] at h
        exact Option.noConfusion h
      · simp only [lookupKey, if_neg hp] at h
        simp only [List.cons_append, lookupKey, if_neg hp]
        exact lookupKey_append_single_self t h

theorem lookupKey_updateMetadata_self {l : Entries} {mv : YamlVal} :
    lookupKey "metadata" (updateMetadata l mv) = some mv := by
  unfold updateMetadata
  by_cases h : (lookupKey "metadata" l).isSome
  · rw [if_pos h]
    exact lookupKey_map_update_self l h
  · rw [if_neg h]
    refine lookupKey_append_single_self l ?_
    cases hl : lookupKey "metadata" l with
    | none => rfl
    | some v => rw [hl] at h; simp at h

theorem map_fst_map_update {mv : YamlVal} (l : Entries) :
    (l.map (fun p => if p.1 = "metadata" then ("metadata", mv) else p)).map Prod.fst =
      l.map Prod.fst := by
  induction l with
  | nil => rfl
  | cons p t ih =>
      by_cases h : p.1 = "metadata"
      · simp only [List.map_cons, if_pos h, ih]
        rw [h]
      · simp only [List.map_cons, if_neg h, ih]

theorem nodup_keys_updateMetadata {l : Entries} {mv : YamlVal}
    (hnd : (l.map Prod.fst).Nodup) : ((updateMetadata l mv).map Prod.fst).Nodup := by
  unfold updateMetadata
  by_cases h : (lookupKey "metadata" l).isSome
  · rw [if_pos h, map_fst_map_update]
    exact hnd
  · rw [if_neg h]
    have hnone : lookupKey "metadata" l = none := by
      cases hl : lookupKey "metadata" l with
      | none => rfl
      | some v => rw [hl] at h; simp at h
    have hmem : "metadata" ∉ l.map Prod.fst := lookupKey_none_iff.mp hnone
    rw [List.map_append]
    refine List.nodup_append.mpr ⟨hnd, List.nodup_singleton _, ?_⟩
    intro a ha hb
    simp only [List.map_cons, List.map_nil, List.mem_singleton] at hb
    exact hmem (hb ▸ ha)

theorem updateMetadata_perm {la lb : Entries} (hp : la.Perm lb)
    (hnd : (la.map Prod.fst).Nodup) (mv : YamlVal) :
    (updateMetadata la mv).Perm (updateMetadata lb mv) := by
  unfold updateMetadata
  rw [lookupKey_eq_of_perm hp hnd "metadata"]
  by_cases h : (lookupKey "metadata" lb).isSome
  · rw [if_pos h, if_pos h]
    exact hp.map _
  · rw [if_neg h, if_neg h]
    exact hp.append_right _

/-! ## Inversion lemmas for the typed projection -/

theorem projectObject_ok_meta {l : Entries} {obj : K8sObject}
    (h : projectObject (.map l) = .ok obj) :
    projectMeta (lookupKey "metadata" l) = .ok obj.metadata := by
  simp only [projectObject] at h
  cases h1 : strField (lookupKey "kind" l) with
  | error e => rw [h1] at h; simp at h
  | ok kind =>
      cases h2 : strField (lookupKey "apiVersion" l) with
      | error e => rw [h1, h2] at h; simp at h
      | ok apiVersion =>
          cases h3 : projectMeta (lookupKey "metadata" l) with
          | error e => rw [h1, h2, h3] at h; simp at h
          | ok md =>
              rw [h1, h2, h3] at h
              injection h with he
              subst he
              rfl

theorem projectMeta_ok_namespace {mo : Option YamlVal} {md : K8sMetadata}
    (h : projectMeta mo = .ok md) (hne : md.nspace ≠ "") :
    ∃ lm, mo = some (.map lm) ∧ lookupKey "namespace" lm = some (.str md.nspace) := by
  cases mo with
  | none =>
      simp only [projectMeta] at h
      injection h with he
      exact absurd (congrArg K8sMetadata.nspace he.symm) hne
  | some v =>
      cases v with
      | null =>
          simp only [projectMeta] at h
          injection h with he
          exact absurd (congrArg K8sMetadata.nspace he.symm) hne
      | str s => simp only [projectMeta] at h; exact Except.noConfusion h
      | int n => simp only [projectMeta] at h; exact Except.noConfusion h
      | bool b => simp only [projectMeta] at h; exact Except.noConfusion h
      | seq items => simp only [projectMeta] at h; exact Except.noConfusion h
      | map lm =>
          refine ⟨lm, rfl, ?_⟩
          simp only [projectMeta] at h
          cases h1 : strField (lookupKey "name" lm) with
          | error e => rw [h1] at h; simp at h
          | ok name =>
              cases h2 : strField (lookupKey "namespace" lm) with
              | error e => rw [h1, h2] at h; simp at h
              | ok nspace =>
                  cases h3 : strMapField (lookupKey "labels" lm) with
                  | error e => rw [h1, h2, h3] at h; simp at h
                  | ok labels =>
                      cases h4 : strMapField (lookupKey "annotations" lm) with
                      | error e => rw [h1, h2, h3, h4] at h; simp at h
                      | ok annotations =>
                          rw [h1, h2, h3, h4] at h
                          injection h with he
                          subst he
                          cases hnl : lookupKey "namespace" lm with
                          | none =>
                              rw [hnl] at h2
                              injection h2 with he2
                              exact absurd he2.symm hne
                          | some w =>
                              cases w with
                              | null =>
                                  rw [hnl] at h2
                                  injection h2 with he2
                                  exact absurd he2.symm hne
                              | str s =>
                                  rw [hnl] at h2
                                  injection h2 with he2
                                  rw [he2]
                              | int n => rw [hnl] at h2; injection h2
                              | bool b => rw [hnl] at h2; injection h2
                              | seq items => rw [hnl] at h2; injection h2
                              | map m2 => rw [hnl] at h2; injection h2

theorem normalize_ok_branch {c : String → String → Bool} {defNs : String} {l : Entries}
    {obj : K8sObject} (hproj : projectObject (.map l) = .ok obj) :
    normalize c defNs (.map l) =
      if c obj.kind obj.apiVersion = false ∧ obj.metadata.nspace = "" then
        .ok (.map (sortByKey (updateMetadata (canonEntries l)
          (marshalMeta { obj.metadata with nspace := defNs }))))
      else .ok (canon (.map l)) := by
  simp only [normalize]
  rw [hproj]

/-! ## Lemmas about the Line Sanitizer -/

theorem cleanAux_eq :
    ∀ ls : List Bytes, cleanAux ls = joinLines (ls.filter (fun l => !removeLine l))
  | [] => rfl
  | line :: rest => by
      by_cases h : removeLine line
      · simp [cleanAux, List.filter, h, cleanAux_eq rest]
      · simp [cleanAux, List.filter, h, cleanAux_eq rest, joinLines]

theorem clean_ok {input : Bytes} (ht : tooLong input = false) :
    clean input = .ok (joinLines (keptLines input)) := by
  unfold clean
  rw [ht]
  rw [if_neg (by simp), cleanAux_eq]
  rfl

theorem splitNl_no_nl {l : Bytes} (h : '\n' ∉ l) : splitNl l = [l] := by
  induction l with
  | nil => rfl
  | cons c t ih =>
      have hc : c ≠ '\n' := fun e => h (e ▸ List.mem_cons_self c t)
      rw [splitNl, if_neg hc, ih (fun hm => h (List.mem_cons_of_mem c hm))]

theorem startsWithSeq_mem :
    ∀ {pat l : Bytes}, startsWithSeq pat l = true → ∀ c ∈ pat, c ∈ l
  | [], _, _, c, hc => by simp at hc
  | _ :: _, [], h, _, _ => by simp [startsWithSeq] at h
  | a :: pat, b :: l, h, c, hc => by
      simp only [startsWithSeq, Bool.and_eq_true, decide_eq_true_eq] at h
      rcases List.mem_cons.mp hc with hc | hc
      · exact hc ▸ h.1 ▸ List.mem_cons_self b l
      · exact List.mem_cons_of_mem b (startsWithSeq_mem h.2 c hc)

theorem containsSeq_mem :
    ∀ {pat l : Bytes}, containsSeq pat l = true → ∀ c ∈ pat, c ∈ l
  | _, [], h, c, hc => by
      simp only [containsSeq, List.isEmpty_iff] at h
      subst h
      simp at hc
  | pat, b :: l, h, c, hc => by
      simp only [containsSeq, Bool.or_eq_true] at h
      rcases h with h | h
      · exact startsWithSeq_mem h c hc
      · exact List.mem_cons_of_mem b (containsSeq_mem h c hc)

theorem dropCRB_length_le (l : Bytes) : (dropCRB l).length ≤ l.length := by
  unfold dropCRB
  cases l.getLast? with
  | none => exact Nat.le_refl _
  | some c =>
      show (if c = '\r' then l.dropLast else l).length ≤ l.length
      by_cases hc : c = '\r'
      · rw [if_pos hc, List.length_dropLast]
        exact Nat.sub_le _ _
      · rw [if_neg hc]

theorem trimLeft_head {l t : Bytes} {c : Char} (h : trimLeftSpace l = c :: t) :
    isSpaceChar c = false := by
  induction l with
  | nil => exact absurd h (by simp [trimLeftSpace])
  | cons a r ih =>
      by_cases ha : isSpaceChar a
      · rw [trimLeftSpace, List.dropWhile_cons, if_pos ha] at h
        exact ih h
      · rw [trimLeftSpace, List.dropWhile_cons, if_neg ha] at h
        cases h
        exact Bool.not_eq_true _ ▸ (by simpa using ha)

theorem dropWhile_append_singleton {c : Char} (hc : isSpaceChar c = false) :
    ∀ xs : Bytes, (xs ++ [c]).dropWhile isSpaceChar = xs.dropWhile isSpaceChar ++ [c]
  | [] => by simp [List.dropWhile_cons, hc]
  | x :: xs => by
      by_cases hx : isSpaceChar x
      · simp only [List.cons_append, List.dropWhile_cons, if_pos hx]
        exact dropWhile_append_singleton hc xs
      · simp only [List.cons_append, List.dropWhile_cons, if_neg hx]

theorem startsHash_goTrimSpace (l : Bytes) :
    startsHash (goTrimSpace l) = startsHash (trimLeftSpace l) := by
  unfold goTrimSpace
  cases hm : trimLeftSpace l with
  | nil => rfl
  | cons c t =>
      have hc : isSpaceChar c = false := trimLeft_head hm
      show startsHash (((c :: t).reverse.dropWhile isSpaceChar).reverse) = _
      rw [List.reverse_cons, dropWhile_append_singleton hc, List.reverse_append]
      rfl

theorem removeLine_eq_spec (l : Bytes) : removeLine l = removeLineSpec l := by
  unfold removeLine removeLineSpec
  rw [startsHash_goTrimSpace]

theorem splitNl_ne_nil : ∀ l : Bytes, splitNl l ≠ []
  | [] => by simp [splitNl]
  | c :: t => by
      by_cases h : c = '\n'
      · simp [splitNl, h]
      · simp only [splitNl, if_neg h]
        cases splitNl t <;> simp

theorem noNl_splitNl : ∀ (l : Bytes) (seg : Bytes), seg ∈ splitNl l → '\n' ∉ seg
  | [], seg, hm => by
      simp only [splitNl, List.mem_singleton] at hm
      subst hm; simp
  | c :: t, seg, hm => by
      by_cases h : c = '\n'
      · rw [splitNl, if_pos h] at hm
        rcases List.mem_cons.mp hm with hm | hm
        · subst hm; simp
        · exact noNl_splitNl t seg hm
      · rw [splitNl, if_neg h] at hm
        cases hsp : splitNl t with
        | nil => exact absurd hsp (splitNl_ne_nil t)
        | cons hd r =>
            rw [hsp] at hm
            rcases List.mem_cons.mp hm with hm | hm
            · subst hm
              intro hmem
              rcases List.mem_cons.mp hmem with he | he
              · exact h he.symm
              · exact noNl_splitNl t hd (hsp ▸ List.mem_cons_self hd r) he
            · exact noNl_splitNl t seg (hsp ▸ List.mem_cons_of_mem hd hm)

theorem splitNl_append {line : Bytes} (h : '\n' ∉ line) (rest : Bytes) :
    splitNl (line ++ '\n' :: rest) = line :: splitNl rest := by
  induction line with
  | nil => simp [splitNl]
  | cons c line ih =>
      have hc : c ≠ '\n' := fun e => h (e ▸ List.mem_cons_self c line)
      have hline : '\n' ∉ line := fun hm => h (List.mem_cons_of_mem c hm)
      rw [List.cons_append, splitNl, if_neg hc, ih hline]

theorem splitNl_joinLines {ls : List Bytes} (h : ∀ l ∈ ls, '\n' ∉ l) :
    splitNl (joinLines ls) = ls ++ [[]] := by
  induction ls with
  | nil => rfl
  | cons l rest ih =>
      show splitNl (l ++ '\n' :: joinLines rest) = _
      rw [splitNl_append (h l (List.mem_cons_self l rest)),
        ih (fun x hx => h x (List.mem_cons_of_mem l hx))]
      rfl

theorem dropFinalEmpty_append : ∀ ls : List Bytes, dropFinalEmpty (ls ++ [[]]) = ls
  | [] => by simp [dropFinalEmpty]
  | [x] => by simp [dropFinalEmpty]
  | x :: y :: ls => by
      show dropFinalEmpty (x :: (y :: ls ++ [[]])) = _
      rw [show dropFinalEmpty (x :: (y :: ls ++ [[]])) =
        x :: dropFinalEmpty (y :: ls ++ [[]]) from rfl, dropFinalEmpty_append (y :: ls)]

theorem scanLines_joinLines {ls : List Bytes} (h : ∀ l ∈ ls, '\n' ∉ l) :
    scanLines (joinLines ls) = ls.map dropCRB := by
  unfold scanLines
  rw [splitNl_joinLines h, dropFinalEmpty_append]

theorem dropFinalEmpty_subset : ∀ {ls : List Bytes} {s : Bytes}, s ∈ dropFinalEmpty ls → s ∈ ls
  | [], _, hm => by simp [dropFinalEmpty] at hm
  | [x], s, hm => by
      by_cases h : x.isEmpty
      · simp [dropFinalEmpty, h] at hm
      · simp only [dropFinalEmpty, if_neg h] at hm
        exact hm
  | x :: y :: ls, s, hm => by
      rw [show dropFinalEmpty (x :: y :: ls) = x :: dropFinalEmpty (y :: ls) from rfl] at hm
      rcases List.mem_cons.mp hm with hm | hm
      · exact hm ▸ List.mem_cons_self x (y :: ls)
      · exact List.mem_cons_of_mem x (dropFinalEmpty_subset hm)

theorem noNl_dropCRB {l : Bytes} (h : '\n' ∉ l) : '\n' ∉ dropCRB l := by
  unfold dropCRB
  cases hl : l.getLast? with
  | none => exact h
  | some c =>
      show '\n' ∉ (if c = '\r' then l.dropLast else l)
      by_cases hc : c = '\r'
      · rw [if_pos hc]
        exact fun hm => h (List.dropLast_subset l hm)
      · rw [if_neg hc]
        exact h

theorem noNl_scanLines {x : Bytes} {seg : Bytes} (hm : seg ∈ scanLines x) : '\n' ∉ seg := by
  unfold scanLines at hm
  rcases List.mem_map.mp hm with ⟨s, hs, he⟩
  exact he ▸ noNl_dropCRB (noNl_splitNl x s (dropFinalEmpty_subset hs))

theorem noNl_keptLines {x : Bytes} {seg : Bytes} (hm : seg ∈ keptLines x) : '\n' ∉ seg :=
  noNl_scanLines (List.mem_of_mem_filter hm)

theorem tooLong_clean_output {x : Bytes} (ht : tooLong x = false) :
    tooLong (joinLines (keptLines x)) = false := by
  have hnonl : ∀ l ∈ keptLines x, '\n' ∉ l := fun l hl => noNl_keptLines hl
  unfold tooLong
  rw [splitNl_joinLines hnonl]
  refine List.any_eq_false.mpr ?_
  intro seg hseg
  simp only [decide_eq_true_eq, Nat.not_le]
  rcases List.mem_append.mp hseg with hseg | hseg
  · rcases List.mem_map.mp (List.mem_of_mem_filter hseg) with ⟨raw, hraw, he⟩
    have hlt : raw.length < maxScanTokenSize := by
      have h0 := List.any_eq_false.mp ht raw (dropFinalEmpty_subset hraw)
      simpa [Nat.not_le] using h0
    calc seg.length = (dropCRB raw).length := by rw [← he]
      _ ≤ raw.length := dropCRB_length_le raw
      _ < maxScanTokenSize := hlt
  · rw [List.mem_singleton.mp hseg]
    show ([] : Bytes).length < maxScanTokenSize
    decide

theorem tooLong_bigLine : tooLong (List.replicate (65535 + 1) 'a') = true := by
  unfold tooLong
  rw [splitNl_no_nl (fun hm => absurd (List.eq_of_mem_replicate hm) (by decide))]
  rw [List.any_cons, List.any_nil]
  have hd : maxScanTokenSize ≤ (List.replicate (65535 + 1) 'a').length := by
    rw [List.length_replicate]
    unfold maxScanTokenSize
    omega
  rw [decide_eq_true hd]
  rfl

/-! ## Lemmas about the File Emitter and the whole run -/

theorem emitBatch_lookup (group : String) :
    ∀ (docs : List EmitDoc) (fs : FS) (p : String),
      emitBatch group fs docs p =
        match docs.reverse.find? (fun d => pathOf group d.kind d.name == p) with
        | some d => some d.content
        | none => fs p
  | [], fs, p => rfl
  | d :: rest, fs, p => by
      rw [show emitBatch group fs (d :: rest) =
        emitBatch group (writeFile fs (pathOf group d.kind d.name) d.content) rest from rfl]
      rw [emitBatch_lookup group rest _ p]
      rw [List.reverse_cons, List.find?_append]
      cases hr : rest.reverse.find? (fun d => pathOf group d.kind d.name == p) with
      | some d' => rfl
      | none =>
          show writeFile fs (pathOf group d.kind d.name) d.content p =
            match Option.none.or ([d].find? (fun d => pathOf group d.kind d.name == p)) with
            | some d => some d.content
            | none => fs p
          rw [Option.none_or]
          unfold writeFile
          by_cases hp : pathOf group d.kind d.name = p
          · rw [if_pos hp.symm]
            simp [List.find?, hp]
          · rw [if_neg (Ne.symm hp)]
            rw [show [d].find? (fun d => pathOf group d.kind d.name == p) = none by
              simp only [List.find?]
              rw [show (pathOf group d.kind d.name == p) = false from
                beq_eq_false_iff_ne.mpr hp]]

theorem processDocs_eq (step : YamlVal → Except String (String × String)) :
    ∀ (docs : List YamlVal) (fs : FS),
      processDocs step fs docs = (applyWrites fs (docWrites step docs), docsOk step docs)
  | [], fs => rfl
  | d :: rest, fs => by
      cases hs : step d with
      | error e => simp [processDocs, docWrites, docsOk, hs, applyWrites]
      | ok w =>
          simp only [processDocs, docWrites, docsOk, hs]
          rw [processDocs_eq step rest]
          rfl

theorem applyWrites_app :
    ∀ (ws : List (String × String)) (fs : FS) (p : String),
      applyWrites fs ws p =
        match ws.reverse.find? (fun w => w.1 == p) with
        | some w => some w.2
        | none => fs p
  | [], fs, p => rfl
  | w :: rest, fs, p => by
      rw [show applyWrites fs (w :: rest) = applyWrites (writeFile fs w.1 w.2) rest from rfl]
      rw [applyWrites_app rest _ p]
      rw [List.reverse_cons, List.find?_append]
      cases hr : rest.reverse.find? (fun w => w.1 == p) with
      | some w' => rfl
      | none =>
          show writeFile fs w.1 w.2 p =
            match Option.none.or ([w].find? (fun w => w.1 == p)) with
            | some w => some w.2
            | none => fs p
          rw [Option.none_or]
          unfold writeFile
          by_cases hp : w.1 = p
          · rw [if_pos hp.symm]
            simp [List.find?, hp]
          · rw [if_neg (Ne.symm hp)]
            rw [show [w].find? (fun w => w.1 == p) = none by
              simp only [List.find?]
              rw [show (w.1 == p) = false from beq_eq_false_iff_ne.mpr hp]]

theorem applyWrites_idem (fs : FS) (ws : List (String × String)) :
    applyWrites (applyWrites fs ws) ws = applyWrites fs ws := by
  funext p
  cases hr : ws.reverse.find? (fun w => w.1 == p) with
  | some w => rw [applyWrites_app ws (applyWrites fs ws) p, applyWrites_app ws fs p, hr]
  | none => rw [applyWrites_app ws (applyWrites fs ws) p, hr]

/-! ## The claims -/

/-- Claim C4 (counterexample): the Line Sanitizer is not total over
arbitrary byte sequences.  A single newline-free line of 64 KiB makes
`bufio.Scanner` abort with `ErrTooLong`, so `clean` returns an error and
no output, while the sanitizer described by the claim would keep the
line verbatim with a newline appended. -/
theorem C4_counterexample :
    clean (List.replicate (65535 + 1) 'a') = .error "bufio.Scanner: token too long" ∧
    cleanSpec (List.replicate (65535 + 1) 'a') = List.replicate (65535 + 1) 'a' ++ ['\n'] := by
  have hnl : '\n' ∉ List.replicate (65535 + 1) 'a' := fun hm =>
    absurd (List.eq_of_mem_replicate hm) (by decide)
  constructor
  · unfold clean
    rw [tooLong_bigLine, if_pos rfl]
  · have hscan : scanLines (List.replicate (65535 + 1) 'a') =
        [List.replicate (65535 + 1) 'a'] := by
      have hie : (List.replicate (65535 + 1) 'a').isEmpty = false := by
        rw [List.replicate_succ]
        rfl
      have hdfe : dropFinalEmpty [List.replicate (65535 + 1) 'a'] =
          [List.replicate (65535 + 1) 'a'] := by
        show (if (List.replicate (65535 + 1) 'a').isEmpty then ([] : List Bytes)
          else [List.replicate (65535 + 1) 'a']) = _
        rw [hie]
        rfl
      have hcrb : dropCRB (List.replicate (65535 + 1) 'a') =
          List.replicate (65535 + 1) 'a' := by
        unfold dropCRB
        rw [List.getLast?_replicate, if_neg (by omega : ¬(65535 + 1 = 0))]
        show (if ('a' : Char) = '\r' then (List.replicate (65535 + 1) 'a').dropLast
          else List.replicate (65535 + 1) 'a') = _
        rw [if_neg (by decide)]
      unfold scanLines
      rw [splitNl_no_nl hnl, hdfe]
      simp only [List.map_cons, List.map_nil]
      rw [hcrb]
    have hnot : ∀ pat : Bytes, (∃ c ∈ pat, c ≠ 'a') →
        containsSeq pat (List.replicate (65535 + 1) 'a') = false := by
      intro pat hc
      rcases hc with ⟨c, hcp, hca⟩
      cases hcs : containsSeq pat (List.replicate (65535 + 1) 'a') with
      | false => rfl
      | true => exact absurd (List.eq_of_mem_replicate (containsSeq_mem hcs c hcp)) hca
    have h1 := hnot (String.data "---") ⟨'-', by decide, by decide⟩
    have h2 := hnot (String.data "helm.sh/chart") ⟨'h', by decide, by decide⟩
    have h3 := hnot (String.data "app.kubernetes.io/managed-by") ⟨'p', by decide, by decide⟩
    have h4 : startsHash (trimLeftSpace (List.replicate (65535 + 1) 'a')) = false := by
      rw [List.replicate_succ]
      unfold trimLeftSpace
      rw [List.dropWhile_cons, if_neg (by decide : ¬(isSpaceChar 'a' = true))]
      rfl
    have hkeep : removeLineSpec (List.replicate (65535 + 1) 'a') = false := by
      unfold removeLineSpec
      rw [h1, h2, h3, h4]
      rfl
    unfold cleanSpec
    rw [hscan, List.filter_cons, hkeep]
    show joinLines [List.replicate (65535 + 1) 'a'] = _
    unfold joinLines
    rw [List.foldr_cons, List.foldr_nil]

/-- Claim C4 (amended): on every input all of whose newline-free runs
are below the scanner's 64 KiB token cap, `clean` succeeds and agrees
with the sanitizer read off the spec (`cleanSpec`): it removes exactly
the lines that contain `---`, start with `#` after trimming leading
whitespace, or contain one of the two provenance substrings, and keeps
every other line verbatim with a trailing newline appended; on any
other input it fails with the scanner's token-too-long error instead of
producing output.  The five-line example of the spec yields exactly
`apiVersion: v1\nkind: Pod\n`. -/
theorem C4_sanitizer_filters_exactly :
    (∀ input : Bytes, tooLong input = false → clean input = .ok (cleanSpec input)) ∧
    (∀ input : Bytes, tooLong input = true →
      clean input = .error "bufio.Scanner: token too long") ∧
    clean (String.data "apiVersion: v1\n# comment\n---\n  app.kubernetes.io/managed-by: Helm\nkind: Pod")
      = .ok (String.data "apiVersion: v1\nkind: Pod\n") := by
  refine ⟨?_, ?_, by rfl⟩
  · intro input ht
    rw [clean_ok ht, cleanSpec]
    unfold keptLines
    rw [List.filter_congr (fun l _ => by rw [removeLine_eq_spec])]
  · intro input ht
    unfold clean
    rw [ht, if_pos rfl]

theorem C4_witness :
    clean (String.data "a: 1\n---\nb: 2") = .ok (cleanSpec (String.data "a: 1\n---\nb: 2")) ∧
    clean (List.replicate (65535 + 1) 'a') = .error "bufio.Scanner: token too long" :=
  ⟨C4_sanitizer_filters_exactly.1 _ (by decide),
   C4_sanitizer_filters_exactly.2.1 _ tooLong_bigLine⟩

/-- Claim C10 (counterexample): the Line Sanitizer is not idempotent at
the byte level.  On `"x\r\r\n"` the first pass keeps the scanned line
`x\r` (the scanner strips one carriage return) and emits `"x\r\n"`; a
second pass strips the remaining carriage return and emits `"x\n"`,
which differs. -/
theorem C10_sanitizer_not_idempotent :
    clean (String.data "x\r\r\n") = .ok (String.data "x\r\n") ∧
    clean (String.data "x\r\n") = .ok (String.data "x\n") ∧
    String.data "x\n" ≠ String.data "x\r\n" :=
  ⟨by rfl, by rfl, by decide⟩

/-- Claim C10 (amended): whenever the Line Sanitizer succeeds and none
of the kept lines ends in a carriage return, applying it to its own
output succeeds and returns that output unchanged: every kept line is
reproduced verbatim by the second pass.  (When a kept line ends in a
carriage return the second pass strips it, as the counterexample shows;
and on an over-long line the sanitizer errors instead of producing
output.) -/
theorem C10_sanitizer_idempotent_no_cr (x out : Bytes)
    (hok : clean x = .ok out)
    (h : ∀ line ∈ keptLines x, dropCRB line = line) :
    clean out = .ok out := by
  have ht : tooLong x = false := by
    cases htx : tooLong x with
    | false => rfl
    | true =>
        unfold clean at hok
        rw [htx, if_pos rfl] at hok
        exact Except.noConfusion hok
  have hout : out = joinLines (keptLines x) := by
    have h2 := (clean_ok ht).symm.trans hok
    injection h2 with he
    exact he.symm
  have hmap : (keptLines x).map dropCRB = keptLines x := by
    rw [List.map_congr_left h, List.map_id']
  have hscan : scanLines out = keptLines x := by
    rw [hout, scanLines_joinLines (fun l hl => noNl_keptLines hl), hmap]
  have hfilter : (keptLines x).filter (fun l => !removeLine l) = keptLines x :=
    List.filter_eq_self.mpr (fun a ha => (List.mem_filter.mp ha).2)
  have htout : tooLong out = false := hout ▸ tooLong_clean_output ht
  unfold clean
  rw [htout]
  rw [if_neg (by simp), cleanAux_eq]
  show Except.ok (joinLines ((scanLines out).filter (fun l => !removeLine l))) = _
  rw [hscan, hfilter, ← hout]

theorem C10_witness :
    clean (String.data "a: 1\nb: 2\n") = .ok (String.data "a: 1\nb: 2\n") :=
  C10_sanitizer_idempotent_no_cr (String.data "a: 1\nb: 2\n")
    (String.data "a: 1\nb: 2\n") (by rfl) (by decide)

/-- Claim C5: on a valid stream (every decode succeeds), the Document
Splitter returns exactly the non-null documents, re-serialized, in
stream order — hence exactly `k` documents when the stream holds `k`
non-empty and `e` empty documents. -/
theorem C5_splitter_count_order (docs : List YamlVal) :
    splitYAML (docs.map Except.ok) =
      .ok ((docs.filter (fun v => !isNullDoc v)).map canon) := by
  induction docs with
  | nil => rfl
  | cons v rest ih =>
      cases v with
      | null => simpa [splitYAML, isNullDoc, List.filter] using ih
      | str s => simp [splitYAML, isNullDoc, List.filter, ih]
      | int n => simp [splitYAML, isNullDoc, List.filter, ih]
      | bool b => simp [splitYAML, isNullDoc, List.filter, ih]
      | seq items => simp [splitYAML, isNullDoc, List.filter, ih]
      | map entries => simp [splitYAML, isNullDoc, List.filter, ih]

/-- Claim C6: a stream containing an invalid document makes the
Document Splitter fail with the first decode error, regardless of what
precedes (successfully decoded documents) or follows it: no partial
result is returned. -/
theorem C6_splitter_stops_at_first_error (pre : List YamlVal) (e : String)
    (rest : List (Except String YamlVal)) :
    splitYAML (pre.map Except.ok ++ Except.error e :: rest) = .error e := by
  induction pre with
  | nil => rfl
  | cons v pre ih =>
      cases v with
      | null => simpa [splitYAML] using ih
      | str s => simp [splitYAML, ih]
      | int n => simp [splitYAML, ih]
      | bool b => simp [splitYAML, ih]
      | seq items => simp [splitYAML, ih]
      | map entries => simp [splitYAML, ih]

/-- Claim C8 (counterexample): the derived file name `<kind>_<name>.yaml`
is not injective in the `(kind, name)` pair.  In the batch
`[(A_B, c, "x"), (A_B, c, "y"), (A, B_c, "z")]` the first two documents
share the pair `(A_B, c)`, yet the file of that pair ends up holding
`"z"` — the content of the third, later document with a different pair —
not `"y"` as the claim states. -/
theorem C8_collision_counterexample :
    emitBatch "demo" (fun _ => none)
        [⟨"A_B", "c", "x"⟩, ⟨"A_B", "c", "y"⟩, ⟨"A", "B_c", "z"⟩]
        (pathOf "demo" "A_B" "c") = some "z" ∧ ("z" : String) ≠ "y" := by
  constructor
  · rfl
  · decide

/-- Claim C8 (amended): every document is written to
`working/<group>/<kind>_<name>.yaml`, and after a batch the file at any
path holds the content of the last document in the batch whose derived
path equals it (last write wins by path; distinct pairs may collide on
one path through the `_` separator), while paths no document derives
keep their prior content. -/
theorem C8_last_write_wins_by_path (group : String) (docs : List EmitDoc) (fs : FS)
    (p : String) :
    emitBatch group fs docs p =
      match docs.reverse.find? (fun d => pathOf group d.kind d.name == p) with
      | some d => some d.content
      | none => fs p :=
  emitBatch_lookup group docs fs p

/-- Claim C9: one whole split run writes a sequence of files determined
only by the input stream and configuration, so running it a second time
on the resulting file system reproduces exactly the same final state
(and the same success flag): the operation is idempotent on disk. -/
theorem C9_split_run_idempotent (step : YamlVal → Except String (String × String))
    (stream : List (Except String YamlVal)) (fs : FS) :
    splitRun step stream (splitRun step stream fs).1 = splitRun step stream fs := by
  unfold splitRun
  cases hs : splitYAML stream with
  | error e => rfl
  | ok docs =>
      simp only [processDocs_eq]
      rw [applyWrites_idem]

/-- Claim C2: a namespace-scoped document (under any classification `c`)
with a pre-set non-empty namespace `N` keeps namespace exactly `N` in
the Normalizer's output, whatever default namespace is configured. -/
theorem C2_preset_namespace_preserved (c : String → String → Bool) (defNs N : String)
    (l : Entries) (obj : K8sObject)
    (hwf : wfV (.map l) = true)
    (hproj : projectObject (.map l) = .ok obj)
    (hscope : c obj.kind obj.apiVersion = false)
    (hns : obj.metadata.nspace = N)
    (hne : N ≠ "") :
    ∃ out, normalize c defNs (.map l) = .ok out ∧
      getPath out ["metadata", "namespace"] = some (.str N) := by
  obtain ⟨lm, hmo, hnl⟩ :=
    projectMeta_ok_namespace (projectObject_ok_meta hproj) (fun h0 => hne (hns.symm.trans h0))
  have hcond : ¬(c obj.kind obj.apiVersion = false ∧ obj.metadata.nspace = "") :=
    fun hc => hne (hns.symm.trans hc.2)
  refine ⟨canon (.map l), ?_, ?_⟩
  · rw [normalize_ok_branch hproj, if_neg hcond]
  · rw [getPath_canon _ _ hwf]
    rw [show getPath (.map l) ["metadata", "namespace"] = some (.str N) by
      simp only [getPath, hmo, hnl, hns]]
    rfl

theorem C2_witness :
    ∃ out, normalize (fun _ _ => false) "prod"
        (.map [("kind", .str "Pod"),
          ("metadata", .map [("name", .str "a"), ("namespace", .str "keep")])]) = .ok out ∧
      getPath out ["metadata", "namespace"] = some (.str "keep") :=
  C2_preset_namespace_preserved (fun _ _ => false) "prod" "keep" _
    ⟨"Pod", "", ⟨"a", "keep", [], []⟩⟩ (by decide) (by rfl) rfl rfl (by decide)

/-- Claim C3: a document classified cluster-scoped is passed through
unchanged up to reserialization; in particular no `metadata.namespace`
field appears in the output when none was present in the input. -/
theorem C3_cluster_scoped_never_injected (c : String → String → Bool) (defNs : String)
    (l : Entries) (obj : K8sObject)
    (hwf : wfV (.map l) = true)
    (hproj : projectObject (.map l) = .ok obj)
    (hcs : c obj.kind obj.apiVersion = true)
    (hnone : getPath (.map l) ["metadata", "namespace"] = none) :
    ∃ out, normalize c defNs (.map l) = .ok out ∧
      getPath out ["metadata", "namespace"] = none := by
  have hcond : ¬(c obj.kind obj.apiVersion = false ∧ obj.metadata.nspace = "") :=
    fun hc => Bool.noConfusion (hcs.symm.trans hc.1)
  refine ⟨canon (.map l), ?_, ?_⟩
  · rw [normalize_ok_branch hproj, if_neg hcond]
  · rw [getPath_canon _ _ hwf, hnone]
    rfl

theorem C3_witness :
    ∃ out, normalize (fun _ _ => true) "prod"
        (.map [("kind", .str "Namespace"),
          ("metadata", .map [("name", .str "x")])]) = .ok out ∧
      getPath out ["metadata", "namespace"] = none :=
  C3_cluster_scoped_never_injected (fun _ _ => true) "prod" _
    ⟨"Namespace", "", ⟨"x", "", [], []⟩⟩ (by decide) (by rfl) rfl (by rfl)

/-- Claim C1 (counterexample): injecting a namespace does not preserve
the rest of the document.  `c1doc` is namespace-scoped (classifier
constantly false) with empty namespace and carries
`metadata.creationTimestamp`, a field outside the typed projection; the
Normalizer's output `c1out` has lost that field, so the output differs
from the input by more than the namespace. -/
theorem C1_counterexample :
    normalize (fun _ _ => false) "default" c1doc = .ok c1out ∧
      getPath c1doc ["metadata", "creationTimestamp"] = some (.str "t") ∧
      getPath c1out ["metadata", "creationTimestamp"] = none :=
  ⟨rfl, rfl, rfl⟩

/-- Claim C1 (amended): when the Normalizer injects the default
namespace into a namespace-scoped document with empty namespace, the
whole `metadata` mapping is replaced by the serialized typed projection
(name, injected namespace, non-empty labels and annotations) — fields of
`metadata` outside that projection are dropped — while every top-level
field other than `metadata` keeps its value up to canonical
reserialization; mapping keys are emitted in canonical sorted order, not
input order. -/
theorem C1_injection_replaces_metadata (c : String → String → Bool) (defNs : String)
    (l : Entries) (obj : K8sObject)
    (hnd : keysNodupB l = true)
    (hproj : projectObject (.map l) = .ok obj)
    (hscope : c obj.kind obj.apiVersion = false)
    (hempty : obj.metadata.nspace = "") :
    ∃ outl : Entries, normalize c defNs (.map l) = .ok (.map outl) ∧
      lookupKey "metadata" outl = some (marshalMeta { obj.metadata with nspace := defNs }) ∧
      ∀ k, k ≠ "metadata" → lookupKey k outl = (lookupKey k l).map canon := by
  have hndP : (l.map Prod.fst).Nodup := keysNodupB_iff.mp hnd
  have hndc : ((canonEntries l).map Prod.fst).Nodup := by
    rw [map_fst_canonEntries]; exact hndP
  have hndu : ((updateMetadata (canonEntries l)
      (marshalMeta { obj.metadata with nspace := defNs })).map Prod.fst).Nodup :=
    nodup_keys_updateMetadata hndc
  refine ⟨sortByKey (updateMetadata (canonEntries l)
    (marshalMeta { obj.metadata with nspace := defNs })), ?_, ?_, ?_⟩
  · rw [normalize_ok_branch hproj, if_pos ⟨hscope, hempty⟩]
  · rw [lookupKey_sortByKey hndu]
    exact lookupKey_updateMetadata_self
  · intro k hk
    rw [lookupKey_sortByKey hndu, lookupKey_updateMetadata_ne hk, lookupKey_canonEntries]

theorem C1_witness :
    ∃ outl : Entries,
      normalize (fun _ _ => false) "prod"
          (.map [("kind", .str "Pod"),
            ("metadata", .map [("name", .str "x"), ("foo", .str "bar")])]) = .ok (.map outl) ∧
        lookupKey "metadata" outl =
          some (marshalMeta { name := "x", nspace := "prod", labels := [], annotations := [] }) ∧
        ∀ k, k ≠ "metadata" →
          lookupKey k outl =
            (lookupKey k [("kind", YamlVal.str "Pod"),
              ("metadata", YamlVal.map [("name", YamlVal.str "x"),
                ("foo", YamlVal.str "bar")])]).map canon :=
  C1_injection_replaces_metadata (fun _ _ => false) "prod" _
    ⟨"Pod", "", ⟨"x", "", [], []⟩⟩ (by decide) (by rfl) rfl rfl

/-- Claim C7: the Namespace Normalizer is deterministic.  The Go map
holding the decoded document has no iteration order; modelling the
decoded object map as an entry list up to permutation (with the distinct
keys the decoder guarantees), the full parse → classify → inject →
reserialize step produces identical output for any two presentations of
the same document, because yaml.v2 emits mappings with deterministically
sorted keys. -/
theorem C7_normalizer_deterministic (c : String → String → Bool) (defNs : String)
    (l l' : Entries) (hperm : l.Perm l') (hnd : keysNodupB l = true) :
    normalize c defNs (.map l) = normalize c defNs (.map l') := by
  have hndP : (l.map Prod.fst).Nodup := keysNodupB_iff.mp hnd
  have hproj : projectObject (.map l) = projectObject (.map l') := by
    simp only [projectObject]
    rw [lookupKey_eq_of_perm hperm hndP "kind", lookupKey_eq_of_perm hperm hndP "apiVersion",
      lookupKey_eq_of_perm hperm hndP "metadata"]
  have hpermC : (canonEntries l).Perm (canonEntries l') := by
    rw [canonEntries_eq_map, canonEntries_eq_map]
    exact hperm.map _
  have hndc : ((canonEntries l).map Prod.fst).Nodup := by
    rw [map_fst_canonEntries]; exact hndP
  cases hpo : projectObject (.map l') with
  | error e =>
      have h1 : projectObject (.map l) = .error e := hproj.trans hpo
      simp only [normalize]
      rw [h1, hpo]
  | ok obj =>
      have h1 : projectObject (.map l) = .ok obj := hproj.trans hpo
      by_cases hc : c obj.kind obj.apiVersion = false ∧ obj.metadata.nspace = ""
      · rw [normalize_ok_branch h1, normalize_ok_branch hpo, if_pos hc, if_pos hc]
        rw [sortByKey_eq_of_perm (updateMetadata_perm hpermC hndc _)
          (nodup_keys_updateMetadata hndc)]
      · rw [normalize_ok_branch h1, normalize_ok_branch hpo, if_neg hc, if_neg hc]
        show Except.ok (YamlVal.map (sortByKey (canonEntries l))) = _
        rw [sortByKey_eq_of_perm hpermC hndc]
        rfl

theorem C7_witness :
    normalize (fun _ _ => false) "prod"
        (.map [("kind", .str "Pod"), ("metadata", .map [("name", .str "a")])]) =
      normalize (fun _ _ => false) "prod"
        (.map [("metadata", .map [("name", .str "a")]), ("kind", .str "Pod")]) :=
  C7_normalizer_deterministic (fun _ _ => false) "prod" _ _
    (List.Perm.swap ("metadata", YamlVal.map [("name", YamlVal.str "a")])
      ("kind", YamlVal.str "Pod") [])
    (by decide)

end ClusterForge
